import Mathlib

/-!
# Verification of the retrieval core of `web-chatbot` (`vector_store.py`)

Shallow embedding of the text normalizer (`clean_and_normalize_text`), the
semantic chunker (`semantic_text_splitting`, `process_text`) and the
relevance filter of `search_similar_chunks`, together with proofs of the
specified properties.

Strings are modelled as `List Char`.  Python's regular-expression
operations are modelled by recursive functions that reproduce the
left-to-right, non-overlapping, greedy matching of `re.sub` / `re.split`
for the three concrete patterns the source uses.  FAISS distances are
modelled as rationals (the claims under scrutiny only compare distances,
they never compute with them).
-/

set_option maxRecDepth 100000

namespace WebChatbot

/-- Python's whitespace class (`\s` of the `re` module on `str`, and the
default strip set of `str.strip`): tab..carriage-return, space, the
C1 separators, and the Unicode space characters. -/
def pySpace (c : Char) : Bool :=
  (9 ≤ c.toNat && c.toNat ≤ 13) || c.toNat == 32 ||
  (28 ≤ c.toNat && c.toNat ≤ 31) || c.toNat == 0x85 || c.toNat == 0xA0 ||
  c.toNat == 0x1680 || (0x2000 ≤ c.toNat && c.toNat ≤ 0x200A) ||
  c.toNat == 0x2028 || c.toNat == 0x2029 || c.toNat == 0x202F ||
  c.toNat == 0x205F || c.toNat == 0x3000

/-- Greedy tail of a match of `\s*\n` at the current position: skip
whitespace up to the LAST newline reachable through whitespace only and
return the remainder; `none` when no such newline exists (mirrors the
backtracking of the greedy `\s*` in the pattern `\n\s*\n`). -/
def dropNL : List Char → Option (List Char)
  | [] => none
  | c :: rest =>
    if pySpace c then
      match dropNL rest with
      | some r => some r
      | none => if c = '\n' then some rest else none
    else none

/-- One pass of `re.sub(r'\n\s*\n', '\n', text)`: scan left to right; at a
`'\n'` whose remainder matches `\s*\n` greedily, emit a single `'\n'` and
continue after the match.  The `Nat` argument is fuel (the input length
suffices); the fuel-out branch is unreachable for `subBlank` below. -/
def subBlankGo : Nat → List Char → List Char
  | 0, l => l
  | _ + 1, [] => []
  | fuel + 1, c :: rest =>
    if c = '\n' then
      match dropNL rest with
      | some r => '\n' :: subBlankGo fuel r
      | none => c :: subBlankGo fuel rest
    else c :: subBlankGo fuel rest

/-- `re.sub(r'\n\s*\n', '\n', text)` — "Replace multiple newlines with
single newline" (vector_store.py line 25). -/
def subBlank (l : List Char) : List Char := subBlankGo l.length l

/-- `re.sub(r'\s+', ' ', text)` (vector_store.py line 28): every maximal
run of whitespace characters becomes one single space. -/
def collapseWS : List Char → List Char
  | [] => []
  | [c] => if pySpace c then [' '] else [c]
  | c :: d :: rest =>
    if pySpace c && pySpace d then collapseWS (d :: rest)
    else if pySpace c then ' ' :: collapseWS (d :: rest)
    else c :: collapseWS (d :: rest)

/-- Character-wise effect of `replace('–', '-').replace('—', '-')`. -/
def dashChar (c : Char) : Char := if c = '–' || c = '—' then '-' else c

/-- `text.replace('–', '-').replace('—', '-')` (vector_store.py line 31). -/
def dashFix (l : List Char) : List Char := l.map dashChar

/-- Remove trailing whitespace (the right half of Python's `str.strip`). -/
def stripEnd : List Char → List Char
  | [] => []
  | c :: rest =>
    if (stripEnd rest).isEmpty && pySpace c then [] else c :: stripEnd rest

/-- Python's `str.strip()`: drop leading and trailing whitespace. -/
def stripWS (l : List Char) : List Char := stripEnd (l.dropWhile pySpace)

/-- `clean_and_normalize_text` (vector_store.py lines 11-33): empty input
short-circuits to empty; otherwise collapse blank lines, collapse
whitespace runs, normalize dashes, strip. -/
def clean_and_normalize_text (l : List Char) : List Char :=
  if l = [] then [] else stripWS (dashFix (collapseWS (subBlank l)))

/-- Prepend a character to the first section of a split-in-progress
(used to model `re.split`: characters outside a separator match extend
the current section). -/
def consHead (c : Char) : List (List Char) → List (List Char)
  | [] => [[c]]
  | s :: ss => (c :: s) :: ss

/-- `re.split(r'\n\s*\n', text)` with fuel, same matching discipline as
`subBlankGo`: each greedy `\n\s*\n` match is a separator. -/
def splitBlankGo : Nat → List Char → List (List Char)
  | 0, l => [l]
  | _ + 1, [] => [[]]
  | fuel + 1, c :: rest =>
    if c = '\n' then
      match dropNL rest with
      | some r => [] :: splitBlankGo fuel r
      | none => consHead c (splitBlankGo fuel rest)
    else consHead c (splitBlankGo fuel rest)

/-- `re.split(r'\n\s*\n', text)` (vector_store.py line 49). -/
def splitBlank (l : List Char) : List (List Char) := splitBlankGo l.length l

/-- `re.split(r'\n', section)` (vector_store.py line 55). -/
def splitNL : List Char → List (List Char)
  | [] => [[]]
  | c :: rest => if c = '\n' then [] :: splitNL rest else consHead c (splitNL rest)

/-- Terminal sentence punctuation of the lookbehind `(?<=[.!?])`. -/
def isTerm (c : Char) : Bool := c == '.' || c == '!' || c == '?'

/-- `re.split(r'(?<=[.!?])\s+', section)` with fuel: a maximal whitespace
run directly preceded by `.`, `!` or `?` separates sentences; the
punctuation mark stays with the left sentence. -/
def splitSentGo : Nat → List Char → List (List Char)
  | 0, l => [l]
  | _ + 1, [] => [[]]
  | _ + 1, [c] => [[c]]
  | fuel + 1, c :: d :: rest =>
    if isTerm c && pySpace d then
      [c] :: splitSentGo fuel ((d :: rest).dropWhile pySpace)
    else consHead c (splitSentGo fuel (d :: rest))

/-- `re.split(r'(?<=[.!?])\s+', section)` (vector_store.py line 65). -/
def splitSent (l : List Char) : List (List Char) := splitSentGo l.length l

/-- The sentence-grouping loop of `semantic_text_splitting`
(vector_store.py lines 68-80): greedily append the next sentence while the
running length stays under 1500 (joined with one space); otherwise flush
the accumulator (even when it is the empty string, as the source does)
and restart from the current sentence; a non-empty accumulator is flushed
at the end. -/
def groupLoop : List Char → List (List Char) → List (List Char)
  | cur, [] => if cur = [] then [] else [cur]
  | cur, s :: rest =>
    if cur.length + s.length < 1500 then
      groupLoop (if cur = [] then s else cur ++ ' ' :: s) rest
    else cur :: groupLoop s rest

/-- Sentence grouping, started with the empty accumulator. -/
def groupSentences (sentences : List (List Char)) : List (List Char) :=
  groupLoop [] sentences

/-- `semantic_text_splitting` (vector_store.py lines 35-85): paragraph
split, then single-newline split of sections over 1500 characters, then
sentence grouping of sections still over 1500 characters, then the
noise filter keeping only sections whose stripped length exceeds 50. -/
def semantic_text_splitting (l : List Char) : List (List Char) :=
  if l = [] then []
  else
    ((splitBlank l).flatMap
        (fun s => if 1500 < s.length then splitNL s else [s])).flatMap
        (fun s => if 1500 < s.length then groupSentences (splitSent s) else [s])
      |>.filter (fun s => decide (50 < (stripWS s).length))

/-- Python `range(0, stop, step)` for a positive step (the source always
calls it with `chunk_size - chunk_overlap = 750`). -/
def pyRange (stop step : Nat) : List Nat :=
  (List.range ((stop + step - 1) / step)).map (fun j => j * step)

/-- The sliding-window loop used both as the re-split of oversized
semantic chunks (vector_store.py lines 120-123) and as the simple-chunking
fallback (lines 133-136): slice `l[i : i + size]` at every stride
position and keep slices longer than 50 characters. -/
def windowSplit (l : List Char) (size overlap : Nat) : List (List Char) :=
  ((pyRange l.length (size - overlap)).map (fun i => (l.drop i).take size)).filter
    (fun c => decide (50 < c.length))

/-- `process_text` (vector_store.py lines 87-139): normalize, try semantic
splitting; when it yields more than 3 sections keep them (re-splitting any
section longer than `chunk_size + 500` with the sliding window), otherwise
fall back to the sliding window over the whole normalized text. -/
def process_text (l : List Char) (chunk_size chunk_overlap : Nat) : List (List Char) :=
  if l = [] then []
  else
    if 3 < (semantic_text_splitting (clean_and_normalize_text l)).length then
      (semantic_text_splitting (clean_and_normalize_text l)).flatMap
        (fun c =>
          if chunk_size + 500 < c.length then windowSplit c chunk_size chunk_overlap
          else [c])
    else windowSplit (clean_and_normalize_text l) chunk_size chunk_overlap

/-- The filtering loop of `search_similar_chunks` (vector_store.py lines
197-204): walk the raw candidates in order, stop as soon as `k` have been
kept, keep a candidate when its distance is strictly below the
threshold. -/
def filterLoop (k : Nat) (t : ℚ) : List (Nat × ℚ) → List (Nat × ℚ) → List (Nat × ℚ)
  | acc, [] => acc
  | acc, p :: rest =>
    if k ≤ acc.length then acc
    else if p.2 < t then filterLoop k t (acc ++ [p]) rest
    else filterLoop k t acc rest

/-- `search_similar_chunks` (vector_store.py lines 167-215), modelled on
the full ascending-distance neighbor list of the index (`allN`, one entry
per stored vector, as `index.search` would return them): query the first
`min(2*k, index size)` neighbors, return `([], [])` when that is zero,
filter by threshold, and fall back to the unfiltered top `min(k, ·)`
candidates when nothing passed.  The result is the pair (indices,
distances). -/
def search_similar_chunks (allN : List (Nat × ℚ)) (k : Nat) (t : ℚ) :
    List Nat × List ℚ :=
  if min (2 * k) allN.length = 0 then ([], [])
  else
    if filterLoop k t [] (allN.take (min (2 * k) allN.length)) = [] ∧
        allN.take (min (2 * k) allN.length) ≠ [] then
      (((allN.take (min (2 * k) allN.length)).take
            (min k (allN.take (min (2 * k) allN.length)).length)).map Prod.fst,
       ((allN.take (min (2 * k) allN.length)).take
            (min k (allN.take (min (2 * k) allN.length)).length)).map Prod.snd)
    else
      ((filterLoop k t [] (allN.take (min (2 * k) allN.length))).map Prod.fst,
       (filterLoop k t [] (allN.take (min (2 * k) allN.length))).map Prod.snd)

/-- One 300-character paragraph of scenario A. -/
def paraA : List Char := List.replicate 300 'a'

/-- Scenario A of the spec: four 300-character paragraphs separated by
blank lines. -/
def scenarioA : List Char :=
  paraA ++ '\n' :: '\n' :: (paraA ++ '\n' :: '\n' :: (paraA ++ '\n' :: '\n' :: paraA))

/-- Scenario A after normalization: the four paragraphs joined by single
spaces. -/
def normA : List Char := paraA ++ ' ' :: (paraA ++ ' ' :: (paraA ++ ' ' :: paraA))

/-- Scenario B of the spec: a single 3000-character block with no blank
lines and no sentence punctuation. -/
def scenarioB : List Char := List.replicate 3000 'x'

/-- Auxiliary predicate: the list is empty or starts with a
non-whitespace character. -/
def noWSHead : List Char → Bool
  | [] => true
  | d :: _ => !pySpace d

/-- Auxiliary predicate characterizing the whitespace shape of
`collapseWS` output: every whitespace character is a single `' '` that is
not followed by another whitespace character. -/
def wsNormal : List Char → Bool
  | [] => true
  | c :: rest => (if pySpace c then c == ' ' && noWSHead rest else true) && wsNormal rest

/-! ## Basic facts about `dropNL` and `subBlank` -/

theorem dropNL_length_le : ∀ l r : List Char, dropNL l = some r → r.length ≤ l.length := by
  intro l
  induction l with
  | nil => intro r h; simp [dropNL] at h
  | cons c rest ih =>
    intro r h
    simp only [dropNL] at h
    by_cases hws : pySpace c
    · rw [if_pos hws] at h
      cases hrec : dropNL rest with
      | some r2 =>
        rw [hrec] at h
        injection h with h
        subst h
        have := ih _ hrec
        simp only [List.length_cons]
        omega
      | none =>
        rw [hrec] at h
        by_cases hnl : c = '\n'
        · rw [if_pos hnl] at h
          injection h with h
          subst h
          simp
        · rw [if_neg hnl] at h; cases h
    · rw [if_neg hws] at h; cases h

theorem dropNL_of_noWSHead : ∀ l : List Char, noWSHead l = true → dropNL l = none := by
  intro l h
  cases l with
  | nil => rfl
  | cons c rest =>
    simp only [noWSHead, Bool.not_eq_true'] at h
    simp [dropNL, h]

theorem dropNL_nl (r : List Char) (h : noWSHead r = true) : dropNL ('\n' :: r) = some r := by
  simp [dropNL, dropNL_of_noWSHead r h, pySpace]

theorem subBlankGo_nil : ∀ fuel, subBlankGo fuel [] = [] := by
  intro fuel; cases fuel <;> rfl

theorem subBlankGo_fuel : ∀ f1 f2 l, l.length ≤ f1 → l.length ≤ f2 →
    subBlankGo f1 l = subBlankGo f2 l := by
  intro f1
  induction f1 with
  | zero =>
    intro f2 l h1 _
    have : l = [] := List.length_eq_zero.mp (Nat.le_zero.mp h1)
    subst this
    rw [subBlankGo_nil, subBlankGo_nil]
  | succ f1 ih =>
    intro f2 l h1 h2
    cases l with
    | nil => rw [subBlankGo_nil, subBlankGo_nil]
    | cons c rest =>
      cases f2 with
      | zero => simp at h2
      | succ f2 =>
        simp only [List.length_cons, Nat.succ_le_succ_iff] at h1 h2
        by_cases hnl : c = '\n'
        · cases hrec : dropNL rest with
          | some r =>
            have hr := dropNL_length_le rest r hrec
            simp only [subBlankGo, if_pos hnl, hrec]
            rw [ih f2 r (le_trans hr h1) (le_trans hr h2)]
          | none =>
            simp only [subBlankGo, if_pos hnl, hrec]
            rw [ih f2 rest h1 h2]
        · simp only [subBlankGo, if_neg hnl]
          rw [ih f2 rest h1 h2]

theorem subBlank_nil : subBlank [] = [] := rfl

theorem subBlank_cons_of_ne (c : Char) (rest : List Char) (h : c ≠ '\n') :
    subBlank (c :: rest) = c :: subBlank rest := by
  simp [subBlank, subBlankGo, h]

theorem subBlank_cons_match (rest r : List Char) (h : dropNL rest = some r) :
    subBlank ('\n' :: rest) = '\n' :: subBlank r := by
  have hr := dropNL_length_le rest r h
  simp only [subBlank, List.length_cons, subBlankGo, if_pos rfl, h]
  rw [subBlankGo_fuel rest.length r.length r hr (le_refl _)]
  simp

theorem subBlank_cons_nomatch (rest : List Char) (h : dropNL rest = none) :
    subBlank ('\n' :: rest) = '\n' :: subBlank rest := by
  simp only [subBlank, List.length_cons, subBlankGo, if_pos rfl, h]
  simp

theorem subBlank_append_noNL : ∀ A rest : List Char, '\n' ∉ A →
    subBlank (A ++ rest) = A ++ subBlank rest := by
  intro A
  induction A with
  | nil => intro rest _; simp
  | cons a A ih =>
    intro rest h
    have ha : a ≠ '\n' := by
      intro e; exact h (by simp [e])
    have hA : '\n' ∉ A := by
      intro e; exact h (by simp [e])
    rw [List.cons_append, subBlank_cons_of_ne a (A ++ rest) ha, ih rest hA, List.cons_append]

theorem subBlank_of_noNL (l : List Char) (h : '\n' ∉ l) : subBlank l = l := by
  have := subBlank_append_noNL l [] h
  simpa [subBlank_nil] using this

/-! ## Basic facts about `collapseWS`, `dashFix`, `stripEnd`, `stripWS` -/

theorem collapseWS_cons_of_neg (c : Char) (l : List Char) (h : pySpace c = false) :
    collapseWS (c :: l) = c :: collapseWS l := by
  cases l <;> simp [collapseWS, h]

theorem collapseWS_ws_cons (c : Char) (r : List Char) (hc : pySpace c = true)
    (hr : noWSHead r = true) (hne : r ≠ []) :
    collapseWS (c :: r) = ' ' :: collapseWS r := by
  cases r with
  | nil => exact absurd rfl hne
  | cons d tl =>
    simp only [noWSHead, Bool.not_eq_true'] at hr
    simp [collapseWS, hc, hr]

theorem collapseWS_append_noWS : ∀ A rest : List Char, (∀ c ∈ A, pySpace c = false) →
    collapseWS (A ++ rest) = A ++ collapseWS rest := by
  intro A
  induction A with
  | nil => intro rest _; simp
  | cons a A ih =>
    intro rest h
    rw [List.cons_append, collapseWS_cons_of_neg a (A ++ rest) (h a (by simp)),
      ih rest (fun c hc => h c (by simp [hc])), List.cons_append]

theorem collapseWS_of_noWS (l : List Char) (h : ∀ c ∈ l, pySpace c = false) :
    collapseWS l = l := by
  have := collapseWS_append_noWS l [] h
  simpa [collapseWS] using this

theorem mem_collapseWS : ∀ l : List Char, ∀ c ∈ collapseWS l, c = ' ' ∨ pySpace c = false := by
  intro l
  induction l using collapseWS.induct with
  | case1 => intro c hc; simp [collapseWS] at hc
  | case2 c hws =>
    intro e he
    simp only [collapseWS, if_pos hws, List.mem_singleton] at he
    exact Or.inl he
  | case3 c hws =>
    intro e he
    simp only [collapseWS, if_neg hws, List.mem_singleton] at he
    subst he
    exact Or.inr (by simpa using hws)
  | case4 c d rest h ih =>
    intro e he
    simp only [collapseWS, if_pos h] at he
    exact ih e he
  | case5 c d rest h hc ih =>
    intro e he
    simp only [collapseWS, if_neg h, if_pos hc, List.mem_cons] at he
    rcases he with he | he
    · exact Or.inl he
    · exact ih e he
  | case6 c d rest h hc ih =>
    intro e he
    simp only [collapseWS, if_neg h, if_neg hc, List.mem_cons] at he
    rcases he with he | he
    · subst he; exact Or.inr (by simpa using hc)
    · exact ih e he

theorem nl_not_mem_collapseWS (l : List Char) : '\n' ∉ collapseWS l := by
  intro h
  rcases mem_collapseWS l '\n' h with h1 | h1
  · exact absurd h1 (by decide)
  · exact absurd h1 (by decide)

theorem dashChar_pySpace (c : Char) : pySpace (dashChar c) = pySpace c := by
  by_cases h : (c = '–' || c = '—') = true
  · have : dashChar c = '-' := by simp [dashChar, h]
    rw [this]
    rcases Bool.or_eq_true_iff.mp h with h | h
    · rw [of_decide_eq_true h]; decide
    · rw [of_decide_eq_true h]; decide
  · simp [dashChar, h]

theorem dashChar_eq_self (c : Char) (h1 : c ≠ '–') (h2 : c ≠ '—') : dashChar c = c := by
  simp [dashChar, h1, h2]

theorem nl_not_mem_dashFix (l : List Char) (h : '\n' ∉ l) : '\n' ∉ dashFix l := by
  intro hmem
  rcases List.mem_map.mp hmem with ⟨c, hc, he⟩
  by_cases hd : (c = '–' || c = '—') = true
  · rw [dashChar, if_pos hd] at he
    exact absurd he (by decide)
  · rw [dashChar, if_neg hd] at he
    subst he
    exact h hc

theorem dashFix_eq_self : ∀ l : List Char, (∀ c ∈ l, c ≠ '–' ∧ c ≠ '—') →
    dashFix l = l := by
  intro l
  induction l with
  | nil => intro _; rfl
  | cons c rest ih =>
    intro h
    have hc := h c (by simp)
    have : dashFix rest = rest := ih (fun e he => h e (by simp [he]))
    simp only [dashFix, List.map_cons] at this ⊢
    rw [this, dashChar_eq_self c hc.1 hc.2]

theorem stripEnd_of_noWS : ∀ l : List Char, (∀ c ∈ l, pySpace c = false) →
    stripEnd l = l := by
  intro l
  induction l with
  | nil => intro _; rfl
  | cons c rest ih =>
    intro h
    rw [stripEnd, ih (fun c hc => h c (by simp [hc])), if_neg]
    simp [h c (by simp)]

theorem stripEnd_append : ∀ l1 l2 : List Char,
    stripEnd (l1 ++ l2) = if stripEnd l2 = [] then stripEnd l1 else l1 ++ stripEnd l2 := by
  intro l1 l2
  induction l1 with
  | nil => by_cases h : stripEnd l2 = [] <;> simp [h, stripEnd]
  | cons c rest ih =>
    by_cases h : stripEnd l2 = []
    · rw [if_pos h] at ih
      simp only [List.cons_append, stripEnd, List.append_eq, ih, if_pos h]
    · rw [if_neg h] at ih
      have hne : rest ++ stripEnd l2 ≠ [] := by
        intro e
        exact h (List.append_eq_nil.mp e).2
      simp only [List.cons_append, stripEnd, List.append_eq, ih, if_neg h]
      simp [List.isEmpty_iff, hne]

theorem stripEnd_length_le : ∀ l : List Char, (stripEnd l).length ≤ l.length := by
  intro l
  induction l with
  | nil => simp [stripEnd]
  | cons c rest ih =>
    rw [stripEnd]
    by_cases h : ((stripEnd rest).isEmpty && pySpace c) = true
    · rw [if_pos h]; simp
    · rw [if_neg h]
      simp only [List.length_cons]
      omega

theorem mem_stripEnd : ∀ l : List Char, ∀ c ∈ stripEnd l, c ∈ l := by
  intro l
  induction l with
  | nil => intro c hc; simp [stripEnd] at hc
  | cons d rest ih =>
    intro c hc
    rw [stripEnd] at hc
    by_cases h : ((stripEnd rest).isEmpty && pySpace d) = true
    · rw [if_pos h] at hc; simp at hc
    · rw [if_neg h] at hc
      rcases List.mem_cons.mp hc with hc | hc
      · simp [hc]
      · exact List.mem_cons_of_mem d (ih c hc)

theorem stripWS_length_le (l : List Char) : (stripWS l).length ≤ l.length :=
  le_trans (stripEnd_length_le _) (List.dropWhile_sublist pySpace).length_le

theorem mem_stripWS (l : List Char) (c : Char) (h : c ∈ stripWS l) : c ∈ l :=
  (List.dropWhile_sublist pySpace).mem (mem_stripEnd _ c h)

theorem dropWhile_of_noWSHead (l : List Char) (h : noWSHead l = true) :
    l.dropWhile pySpace = l := by
  cases l with
  | nil => rfl
  | cons c rest =>
    simp only [noWSHead, Bool.not_eq_true'] at h
    exact List.dropWhile_cons_of_neg (by simp [h])

theorem stripWS_of_noWS (l : List Char) (h : ∀ c ∈ l, pySpace c = false) :
    stripWS l = l := by
  unfold stripWS
  rw [dropWhile_of_noWSHead, stripEnd_of_noWS l h]
  cases l with
  | nil => rfl
  | cons c rest => simp [noWSHead, h c (by simp)]

/-! ## The whitespace normal form produced by `collapseWS` -/

theorem wsNormal_tail (c : Char) (l : List Char) (h : wsNormal (c :: l) = true) :
    wsNormal l = true := by
  simp only [wsNormal, Bool.and_eq_true] at h
  exact h.2

theorem noWSHead_collapseWS_cons (d : Char) (tl : List Char) (hd : pySpace d = false) :
    noWSHead (collapseWS (d :: tl)) = true := by
  rw [collapseWS_cons_of_neg d tl hd]
  simp [noWSHead, hd]

theorem wsNormal_collapseWS : ∀ l : List Char, wsNormal (collapseWS l) = true := by
  intro l
  induction l using collapseWS.induct with
  | case1 => rfl
  | case2 c h =>
    simp only [collapseWS, if_pos h]
    decide
  | case3 c h =>
    simp only [collapseWS, if_neg h]
    simp only [Bool.not_eq_true] at h
    simp [wsNormal, h]
  | case4 c d rest h ih =>
    simpa [collapseWS, h] using ih
  | case5 c d rest h hc ih =>
    have hd : pySpace d = false := by
      cases hpd : pySpace d
      · rfl
      · exact absurd (by simp [hc, hpd] : (pySpace c && pySpace d) = true) h
    simp only [collapseWS, if_neg h, if_pos hc]
    simp only [wsNormal, if_pos (show pySpace ' ' = true by decide), Bool.and_eq_true]
    exact ⟨⟨by decide, noWSHead_collapseWS_cons d rest hd⟩, ih⟩
  | case6 c d rest h hc ih =>
    simp only [collapseWS, if_neg h, if_neg hc]
    simp only [wsNormal, if_neg hc, Bool.true_and]
    exact ih

theorem collapseWS_of_wsNormal : ∀ l : List Char, wsNormal l = true → collapseWS l = l := by
  intro l
  induction l using collapseWS.induct with
  | case1 => intro _; rfl
  | case2 c h =>
    intro hw
    have hc : c = ' ' := by
      by_contra hne
      simp [wsNormal, if_pos h, hne, noWSHead] at hw
    subst hc
    decide
  | case3 c h =>
    intro _
    simp [collapseWS, h]
  | case4 c d rest h ih =>
    intro hw
    exfalso
    simp only [Bool.and_eq_true] at h
    obtain ⟨hc, hd⟩ := h
    simp only [wsNormal, if_pos hc, noWSHead, Bool.and_eq_true, beq_iff_eq] at hw
    rcases hw with ⟨⟨_, hhd⟩, _⟩
    rw [hd] at hhd
    exact absurd hhd (by decide)
  | case5 c d rest h hc ih =>
    intro hw
    have htl := wsNormal_tail c (d :: rest) hw
    simp only [wsNormal, if_pos hc, noWSHead, Bool.and_eq_true, beq_iff_eq] at hw
    simp only [collapseWS, if_neg h, if_pos hc, ih htl]
    rw [hw.1.1]
  | case6 c d rest h hc ih =>
    intro hw
    have htl := wsNormal_tail c (d :: rest) hw
    simp only [collapseWS, if_neg h, if_neg hc, ih htl]

theorem wsNormal_dashFix : ∀ l : List Char, wsNormal l = true → wsNormal (dashFix l) = true := by
  intro l
  induction l with
  | nil => intro _; rfl
  | cons c rest ih =>
    intro h
    have h2 := wsNormal_tail c rest h
    simp only [wsNormal, Bool.and_eq_true] at h
    simp only [dashFix, List.map_cons, wsNormal, Bool.and_eq_true]
    refine ⟨?_, by simpa [dashFix] using ih h2⟩
    by_cases hws : pySpace (dashChar c) = true
    · rw [if_pos hws]
      rw [dashChar_pySpace] at hws
      rw [if_pos hws] at h
      have h1 := h.1
      simp only [Bool.and_eq_true, beq_iff_eq] at h1
      have hc : dashChar c = ' ' := by rw [h1.1]; decide
      cases rest with
      | nil => simp [hc, noWSHead]
      | cons d tl =>
        have hd : pySpace d = false := by simpa [noWSHead] using h1.2
        simp [hc, noWSHead, dashChar_pySpace, hd]
    · rw [if_neg hws]

theorem wsNormal_dropWhile : ∀ l : List Char, wsNormal l = true →
    wsNormal (l.dropWhile pySpace) = true := by
  intro l
  induction l with
  | nil => intro _; rfl
  | cons c rest ih =>
    intro h
    by_cases hc : pySpace c = true
    · rw [List.dropWhile_cons_of_pos hc]
      exact ih (wsNormal_tail c rest h)
    · rw [List.dropWhile_cons_of_neg (by simpa using hc)]
      exact h

theorem stripEnd_shape (c : Char) (rest : List Char) :
    stripEnd (c :: rest) = [] ∨ ∃ r, stripEnd (c :: rest) = c :: r := by
  rw [stripEnd]
  by_cases h : ((stripEnd rest).isEmpty && pySpace c) = true
  · rw [if_pos h]
    exact Or.inl rfl
  · rw [if_neg h]
    exact Or.inr ⟨stripEnd rest, rfl⟩

theorem wsNormal_stripEnd : ∀ l : List Char, wsNormal l = true →
    wsNormal (stripEnd l) = true := by
  intro l
  induction l with
  | nil => intro _; rfl
  | cons c rest ih =>
    intro h
    have ht := wsNormal_tail c rest h
    rw [stripEnd]
    by_cases hcond : ((stripEnd rest).isEmpty && pySpace c) = true
    · rw [if_pos hcond]; rfl
    · rw [if_neg hcond]
      simp only [wsNormal, Bool.and_eq_true]
      refine ⟨?_, ih ht⟩
      by_cases hws : pySpace c = true
      · rw [if_pos hws]
        simp only [wsNormal, if_pos hws, Bool.and_eq_true] at h
        have h1 := h.1
        simp only [Bool.and_eq_true, beq_iff_eq] at h1
        simp only [Bool.and_eq_true, beq_iff_eq]
        refine ⟨h1.1, ?_⟩
        have hne : stripEnd rest ≠ [] := by
          intro e
          apply hcond
          simp [e, hws]
        cases rest with
        | nil => simp [stripEnd] at hne
        | cons d tl =>
          have hd : pySpace d = false := by simpa [noWSHead] using h1.2
          rcases stripEnd_shape d tl with he | ⟨r, he⟩
          · exact absurd he hne
          · rw [he]; simp [noWSHead, hd]
      · rw [if_neg hws]

theorem stripEnd_idem : ∀ l : List Char, stripEnd (stripEnd l) = stripEnd l := by
  intro l
  induction l with
  | nil => rfl
  | cons c rest ih =>
    rw [stripEnd]
    by_cases h : ((stripEnd rest).isEmpty && pySpace c) = true
    · rw [if_pos h]; rfl
    · rw [if_neg h, stripEnd, ih, if_neg h]

theorem noWSHead_dropWhile (l : List Char) : noWSHead (l.dropWhile pySpace) = true := by
  induction l with
  | nil => rfl
  | cons c rest ih =>
    by_cases hc : pySpace c = true
    · rw [List.dropWhile_cons_of_pos hc]
      exact ih
    · rw [List.dropWhile_cons_of_neg (by simpa using hc)]
      simp only [noWSHead, Bool.not_eq_true']
      simpa using hc

theorem dropWhile_stripWS (l : List Char) : (stripWS l).dropWhile pySpace = stripWS l := by
  unfold stripWS
  cases hu : l.dropWhile pySpace with
  | nil => rfl
  | cons c rest =>
    have hnws : noWSHead (c :: rest) = true := hu ▸ noWSHead_dropWhile l
    simp only [noWSHead, Bool.not_eq_true'] at hnws
    rcases stripEnd_shape c rest with he | ⟨r, he⟩
    · rw [he]; rfl
    · rw [he]
      exact List.dropWhile_cons_of_neg (by simp [hnws])

theorem stripWS_idem (l : List Char) : stripWS (stripWS l) = stripWS l := by
  have h1 : stripWS (stripWS l) = stripEnd ((stripWS l).dropWhile pySpace) := rfl
  rw [h1, dropWhile_stripWS]
  show stripEnd (stripEnd (l.dropWhile pySpace)) = stripEnd (l.dropWhile pySpace)
  exact stripEnd_idem _

theorem wsNormal_stripWS (l : List Char) (h : wsNormal l = true) :
    wsNormal (stripWS l) = true :=
  wsNormal_stripEnd _ (wsNormal_dropWhile l h)

/-! ## Newline-freedom of normalized text and identities of the split functions -/

theorem nl_not_mem_clean (l : List Char) : '\n' ∉ clean_and_normalize_text l := by
  unfold clean_and_normalize_text
  by_cases h : l = []
  · rw [if_pos h]; simp
  · rw [if_neg h]
    intro hmem
    exact nl_not_mem_dashFix _ (nl_not_mem_collapseWS _) (mem_stripWS _ _ hmem)

theorem splitBlankGo_of_noNL : ∀ fuel : Nat, ∀ l : List Char, '\n' ∉ l →
    splitBlankGo fuel l = [l] := by
  intro fuel
  induction fuel with
  | zero => intro l _; rfl
  | succ fuel ih =>
    intro l h
    cases l with
    | nil => rfl
    | cons c rest =>
      have hc : c ≠ '\n' := fun e => h (by simp [e])
      have hr : '\n' ∉ rest := fun e => h (by simp [e])
      simp only [splitBlankGo, if_neg hc, ih rest hr, consHead]

theorem splitBlank_of_noNL (l : List Char) (h : '\n' ∉ l) : splitBlank l = [l] :=
  splitBlankGo_of_noNL l.length l h

theorem splitNL_of_noNL : ∀ l : List Char, '\n' ∉ l → splitNL l = [l] := by
  intro l
  induction l with
  | nil => intro _; rfl
  | cons c rest ih =>
    intro h
    have hc : c ≠ '\n' := fun e => h (by simp [e])
    have hr : '\n' ∉ rest := fun e => h (by simp [e])
    simp only [splitNL, if_neg hc, ih hr, consHead]

theorem splitSentGo_of_noTerm : ∀ fuel : Nat, ∀ l : List Char,
    (∀ c ∈ l, isTerm c = false) → splitSentGo fuel l = [l] := by
  intro fuel
  induction fuel with
  | zero => intro l _; rfl
  | succ fuel ih =>
    intro l h
    cases l with
    | nil => rfl
    | cons c rest =>
      cases rest with
      | nil => rfl
      | cons d tl =>
        have hc : isTerm c = false := h c (by simp)
        have hrest : ∀ e ∈ d :: tl, isTerm e = false := by
          intro e he
          exact h e (List.mem_cons_of_mem c he)
        simp only [splitSentGo, hc, Bool.false_and, if_neg (by simp : ¬(false = true)),
          ih (d :: tl) hrest, consHead]

theorem splitSent_of_noTerm (l : List Char) (h : ∀ c ∈ l, isTerm c = false) :
    splitSent l = [l] :=
  splitSentGo_of_noTerm l.length l h

theorem dashChar_ne_dash (e : Char) : dashChar e ≠ '–' ∧ dashChar e ≠ '—' := by
  by_cases h : (decide (e = '–') || decide (e = '—')) = true
  · rw [dashChar, if_pos h]
    exact ⟨by decide, by decide⟩
  · rw [dashChar, if_neg h]
    simp only [Bool.or_eq_true, decide_eq_true_eq] at h
    push_neg at h
    exact h

/-- Claim C9: `normalize` is idempotent:
`normalize(normalize(T)) == normalize(T)` for every string `T`. -/
theorem normalize_idempotent (l : List Char) :
    clean_and_normalize_text (clean_and_normalize_text l) = clean_and_normalize_text l := by
  by_cases h : l = []
  · subst h; rfl
  · by_cases hNnil : clean_and_normalize_text l = []
    · rw [hNnil]; rfl
    · have hNdef : clean_and_normalize_text l =
          stripWS (dashFix (collapseWS (subBlank l))) := by
        rw [clean_and_normalize_text, if_neg h]
      have hnl : '\n' ∉ clean_and_normalize_text l := nl_not_mem_clean l
      have hwsn : wsNormal (clean_and_normalize_text l) = true := by
        rw [hNdef]
        exact wsNormal_stripWS _ (wsNormal_dashFix _ (wsNormal_collapseWS _))
      have hnd : ∀ c ∈ clean_and_normalize_text l, c ≠ '–' ∧ c ≠ '—' := by
        intro c hc
        rw [hNdef] at hc
        rcases List.mem_map.mp (mem_stripWS _ c hc) with ⟨e, _, he⟩
        rw [← he]
        exact dashChar_ne_dash e
      rw [clean_and_normalize_text, if_neg hNnil, subBlank_of_noNL _ hnl,
        collapseWS_of_wsNormal _ hwsn, dashFix_eq_self _ hnd, hNdef]
      exact stripWS_idem _

/-- Claim C2 (counterexample): on the input `"a\n\nb"` the claimed behavior
fails — the blank-line paragraph boundary does NOT survive as a newline in
the output of `clean_and_normalize_text`; the output is `"a b"`, which
contains no newline at all. -/
theorem normalize_blankline_cex :
    clean_and_normalize_text ('a' :: '\n' :: '\n' :: 'b' :: []) = ('a' :: ' ' :: 'b' :: []) ∧
    '\n' ∉ clean_and_normalize_text ('a' :: '\n' :: '\n' :: 'b' :: []) := by decide

/-- Claim C2 (amended): the first substitution does collapse blank-line
runs to a single newline, but the subsequent whitespace collapsing
replaces every whitespace run — those single newlines included — by a
single space, so the output of `clean_and_normalize_text` contains no
newline character at all. -/
theorem normalize_drops_newlines (l : List Char) :
    '\n' ∉ clean_and_normalize_text l :=
  nl_not_mem_clean l

/-- Claim C4: for every input string the output of
`clean_and_normalize_text` contains no newline character, and therefore
the blank-line paragraph split of the semantic cascade, applied to
normalized text, always yields exactly one section. -/
theorem normalize_no_newline_one_section (l : List Char) :
    '\n' ∉ clean_and_normalize_text l ∧
    splitBlank (clean_and_normalize_text l) = [clean_and_normalize_text l] :=
  ⟨nl_not_mem_clean l, splitBlank_of_noNL _ (nl_not_mem_clean l)⟩

/-! ## The relevance filter of `search_similar_chunks` -/

theorem filterLoop_eq (k : Nat) (t : ℚ) : ∀ l acc : List (Nat × ℚ),
    filterLoop k t acc l =
      if k ≤ acc.length then acc
      else acc ++ (l.filter (fun p => decide (p.2 < t))).take (k - acc.length) := by
  intro l
  induction l with
  | nil =>
    intro acc
    by_cases h : k ≤ acc.length <;> simp [filterLoop, h]
  | cons p rest ih =>
    intro acc
    by_cases h : k ≤ acc.length
    · simp [filterLoop, h]
    · rw [filterLoop, if_neg h]
      by_cases hp : p.2 < t
      · rw [if_pos hp, ih]
        have hlen : (acc ++ [p]).length = acc.length + 1 := by simp
        have hsub : k - acc.length = (k - acc.length - 1) + 1 := by omega
        rw [if_neg h, List.filter_cons_of_pos (by simpa using hp), hsub,
          List.take_succ_cons]
        by_cases h2 : k ≤ (acc ++ [p]).length
        · rw [if_pos h2]
          have : k - acc.length - 1 = 0 := by
            rw [hlen] at h2; omega
          simp [this]
        · rw [if_neg h2]
          have : k - (acc ++ [p]).length = k - acc.length - 1 := by
            rw [hlen]; omega
          rw [this]
          simp
      · rw [if_neg hp, ih, if_neg h, List.filter_cons_of_neg (by simpa using hp),
          if_neg h]

theorem filterLoop_nil_acc (k : Nat) (t : ℚ) (raw : List (Nat × ℚ)) :
    filterLoop k t [] raw = (raw.filter (fun p => decide (p.2 < t))).take k := by
  rw [filterLoop_eq]
  cases k with
  | zero => simp
  | succ k => simp

theorem take_min_length {α : Type} (l : List α) (k : Nat) :
    l.take (min k l.length) = l.take k := by
  rcases Nat.le_total k l.length with h | h
  · rw [Nat.min_eq_left h]
  · rw [Nat.min_eq_right h, List.take_length, List.take_of_length_le h]

theorem take_ne_nil_of_pos {α : Type} (l : List α) (k : Nat) (hl : l ≠ [])
    (hk : 0 < k) : l.take k ≠ [] := by
  cases l with
  | nil => exact absurd rfl hl
  | cons x xs =>
    cases k with
    | zero => omega
    | succ k => simp [List.take_succ_cons]

/-- Claim C1: on the raw candidate list obtained by querying the index
for `min(2*k, index size)` nearest neighbors (in ascending distance
order), `search_similar_chunks` keeps, in order, the candidates with
distance strictly below the threshold, stopping at `k` kept or at
exhaustion — equivalently it returns the first `k` elements of the
below-threshold sublist — and when no candidate passes while raw
candidates exist it ignores the threshold and returns the first
`min(k, #raw)` raw candidates, so the result is never empty when raw
candidates exist. -/
theorem search_filter_spec (allN : List (Nat × ℚ)) (k : Nat) (t : ℚ) :
    (search_similar_chunks allN k t =
      if ((allN.take (min (2 * k) allN.length)).filter
            (fun p => decide (p.2 < t))).take k = [] ∧
          allN.take (min (2 * k) allN.length) ≠ [] then
        (((allN.take (min (2 * k) allN.length)).take k).map Prod.fst,
         ((allN.take (min (2 * k) allN.length)).take k).map Prod.snd)
      else
        ((((allN.take (min (2 * k) allN.length)).filter
              (fun p => decide (p.2 < t))).take k).map Prod.fst,
         (((allN.take (min (2 * k) allN.length)).filter
              (fun p => decide (p.2 < t))).take k).map Prod.snd)) ∧
    (allN.take (min (2 * k) allN.length) ≠ [] →
      (search_similar_chunks allN k t).1 ≠ []) := by
  by_cases hmin : min (2 * k) allN.length = 0
  · constructor
    · rw [search_similar_chunks, if_pos hmin, hmin]
      simp
    · intro hne
      rw [hmin] at hne
      simp at hne
  · have hraw : allN.take (min (2 * k) allN.length) ≠ [] := by
      intro e
      have he : (allN.take (min (2 * k) allN.length)).length = 0 := by
        rw [e]; rfl
      rw [List.length_take] at he
      omega
    have hk1 : 0 < k := by omega
    have hmain : search_similar_chunks allN k t =
        if ((allN.take (min (2 * k) allN.length)).filter
              (fun p => decide (p.2 < t))).take k = [] ∧
            allN.take (min (2 * k) allN.length) ≠ [] then
          (((allN.take (min (2 * k) allN.length)).take k).map Prod.fst,
           ((allN.take (min (2 * k) allN.length)).take k).map Prod.snd)
        else
          ((((allN.take (min (2 * k) allN.length)).filter
                (fun p => decide (p.2 < t))).take k).map Prod.fst,
           (((allN.take (min (2 * k) allN.length)).filter
                (fun p => decide (p.2 < t))).take k).map Prod.snd) := by
      rw [search_similar_chunks, if_neg hmin, filterLoop_nil_acc, take_min_length,
        take_min_length]
    refine ⟨hmain, ?_⟩
    intro _
    rw [hmain]
    by_cases hcond : ((allN.take (min (2 * k) allN.length)).filter
        (fun p => decide (p.2 < t))).take k = [] ∧
        allN.take (min (2 * k) allN.length) ≠ []
    · rw [if_pos hcond]
      simp only [ne_eq, List.map_eq_nil_iff]
      exact take_ne_nil_of_pos _ k hraw hk1
    · rw [if_neg hcond]
      simp only [ne_eq, List.map_eq_nil_iff]
      intro he
      exact hcond ⟨he, hraw⟩

/-- Claim C1 (witness): a concrete run through the fallback path — one
stored vector at distance 5, threshold 1, `k = 1` — returns a non-empty
index list. -/
theorem search_filter_spec_app :
    (search_similar_chunks (((0 : Nat), (5 : ℚ)) :: []) 1 1).1 ≠ [] :=
  (search_filter_spec (((0 : Nat), (5 : ℚ)) :: []) 1 1).2 (by decide)

/-- Claim C10: searching an index with zero vectors, or searching with
`k = 0` (so that `min(2*k, index size) = 0`), returns the empty result
pair (no indices, no distances) rather than an error. -/
theorem search_degenerate_empty (allN : List (Nat × ℚ)) (k : Nat) (t : ℚ)
    (h : allN = [] ∨ k = 0) : search_similar_chunks allN k t = ([], []) := by
  rcases h with h | h
  · subst h
    simp [search_similar_chunks]
  · subst h
    simp [search_similar_chunks]

/-- Claim C10 (witness): the empty index with `k = 5` yields the empty
result pair. -/
theorem search_degenerate_empty_app :
    search_similar_chunks ([] : List (Nat × ℚ)) 5 1 = ([], []) :=
  search_degenerate_empty [] 5 1 (Or.inl rfl)

/-! ## Chunker invariants -/

theorem mem_consHead_cases {s : List Char} {c : Char} {L : List (List Char)}
    (h : s ∈ consHead c L) :
    (L = [] ∧ s = [c]) ∨ ∃ hd tl, L = hd :: tl ∧ (s = c :: hd ∨ s ∈ tl) := by
  cases L with
  | nil =>
    simp only [consHead, List.mem_singleton] at h
    exact Or.inl ⟨rfl, h⟩
  | cons hd tl =>
    simp only [consHead, List.mem_cons] at h
    exact Or.inr ⟨hd, tl, rfl, h⟩

theorem mem_consHead_length {c : Char} {L : List (List Char)} {s : List Char} {n : Nat}
    (hL : ∀ u ∈ L, u.length ≤ n) (h : s ∈ consHead c L) : s.length ≤ n + 1 := by
  rcases mem_consHead_cases h with ⟨_, rfl⟩ | ⟨hd, tl, rfl, hcase⟩
  · simp
  · rcases hcase with rfl | hmem
    · have := hL hd (by simp)
      simp only [List.length_cons]
      omega
    · have := hL s (by simp [hmem])
      omega

theorem splitBlankGo_mem_length : ∀ fuel : Nat, ∀ l : List Char,
    ∀ s ∈ splitBlankGo fuel l, s.length ≤ l.length := by
  intro fuel
  induction fuel with
  | zero =>
    intro l s hs
    simp only [splitBlankGo, List.mem_singleton] at hs
    subst hs
    exact le_refl _
  | succ fuel ih =>
    intro l s hs
    cases l with
    | nil =>
      simp only [splitBlankGo, List.mem_singleton] at hs
      simp [hs]
    | cons c rest =>
      by_cases hc : c = '\n'
      · rw [splitBlankGo, if_pos hc] at hs
        cases hrec : dropNL rest with
        | some r =>
          rw [hrec] at hs
          simp only [List.mem_cons] at hs
          rcases hs with rfl | hs
          · simp
          · have h1 := ih r s hs
            have h2 := dropNL_length_le rest r hrec
            simp only [List.length_cons]
            omega
        | none =>
          rw [hrec] at hs
          exact mem_consHead_length (ih rest) hs
      · rw [splitBlankGo, if_neg hc] at hs
        exact mem_consHead_length (ih rest) hs

theorem splitBlank_mem_length (l : List Char) : ∀ s ∈ splitBlank l, s.length ≤ l.length :=
  splitBlankGo_mem_length l.length l

theorem mem_semantic_strip (m s : List Char)
    (h : s ∈ semantic_text_splitting m) : 50 < (stripWS s).length := by
  rw [semantic_text_splitting] at h
  by_cases hm : m = []
  · rw [if_pos hm] at h
    simp at h
  · rw [if_neg hm] at h
    have := (List.mem_filter.mp h).2
    simpa using this

theorem mem_windowSplit {l c : List Char} {size overlap : Nat}
    (h : c ∈ windowSplit l size overlap) :
    50 < c.length ∧ c.length ≤ size ∧ ∃ i, c = (l.drop i).take size := by
  have h1 := (List.mem_filter.mp h).2
  have h2 := (List.mem_filter.mp h).1
  rcases List.mem_map.mp h2 with ⟨i, _, rfl⟩
  refine ⟨by simpa using h1, ?_, ⟨i, rfl⟩⟩
  rw [List.length_take]
  omega

/-- Claim C6: every chunk returned by `process_text` — on the semantic
path, the post-cascade re-split path and the sliding-window fallback path
alike — has length strictly greater than 50 characters. -/
theorem chunks_noise_floor (l : List Char) (cs co : Nat) (c : List Char)
    (h : c ∈ process_text l cs co) : 50 < c.length := by
  rw [process_text] at h
  by_cases hl : l = []
  · rw [if_pos hl] at h
    simp at h
  · rw [if_neg hl] at h
    by_cases hsem : 3 < (semantic_text_splitting (clean_and_normalize_text l)).length
    · rw [if_pos hsem] at h
      rcases List.mem_flatMap.mp h with ⟨s, hs, hc⟩
      have hstrip := mem_semantic_strip _ s hs
      by_cases hbig : cs + 500 < s.length
      · rw [if_pos hbig] at hc
        exact (mem_windowSplit hc).1
      · rw [if_neg hbig] at hc
        simp only [List.mem_singleton] at hc
        subst hc
        exact lt_of_lt_of_le hstrip (stripWS_length_le c)
    · rw [if_neg hsem] at h
      exact (mem_windowSplit h).1

/-- Claim C6 (witness): on the 60-character input `replicate 60 'a'` the
pipeline returns that text as its single chunk, whose length exceeds
50. -/
theorem chunks_noise_floor_app : 50 < (List.replicate 60 'a').length :=
  chunks_noise_floor (List.replicate 60 'a') 1000 250 (List.replicate 60 'a') (by decide)

/-- Claim C7: every chunk returned by `process_text` has length at most
`chunk_size + 500` — a semantic chunk exceeding that bound is re-split by
the sliding window before being added — and every chunk produced by the
sliding-window method itself (re-split or fallback) has length at most
`chunk_size`. -/
theorem chunks_size_cap :
    (∀ (l : List Char) (cs co : Nat), ∀ c ∈ process_text l cs co,
      c.length ≤ cs + 500) ∧
    (∀ (m : List Char) (cs co : Nat), ∀ c ∈ windowSplit m cs co, c.length ≤ cs) := by
  have hwin : ∀ (m : List Char) (cs co : Nat), ∀ c ∈ windowSplit m cs co,
      c.length ≤ cs := fun m cs co c h => (mem_windowSplit h).2.1
  refine ⟨?_, hwin⟩
  intro l cs co c h
  rw [process_text] at h
  by_cases hl : l = []
  · rw [if_pos hl] at h
    simp at h
  · rw [if_neg hl] at h
    by_cases hsem : 3 < (semantic_text_splitting (clean_and_normalize_text l)).length
    · rw [if_pos hsem] at h
      rcases List.mem_flatMap.mp h with ⟨s, _, hc⟩
      by_cases hbig : cs + 500 < s.length
      · rw [if_pos hbig] at hc
        exact le_trans (hwin s cs co c hc) (by omega)
      · rw [if_neg hbig] at hc
        simp only [List.mem_singleton] at hc
        subst hc
        omega
    · rw [if_neg hsem] at h
      exact le_trans (hwin _ cs co c h) (by omega)

/-- Claim C7 (witness): on the 70-character input `replicate 70 'b'` the
single returned chunk respects the `chunk_size + 500` cap. -/
theorem chunks_size_cap_app : (List.replicate 70 'b').length ≤ 1000 + 500 :=
  chunks_size_cap.1 (List.replicate 70 'b') 1000 250 (List.replicate 70 'b') (by decide)

theorem semantic_nil_of_short (m : List Char) (h : m.length ≤ 50) :
    semantic_text_splitting m = [] := by
  rw [semantic_text_splitting]
  by_cases hm : m = []
  · rw [if_pos hm]
  · rw [if_neg hm]
    apply List.filter_eq_nil_iff.mpr
    intro s hs
    rcases List.mem_flatMap.mp hs with ⟨u, hu, hsu⟩
    rcases List.mem_flatMap.mp hu with ⟨v, hv, huv⟩
    have hvlen : v.length ≤ m.length := splitBlank_mem_length m v hv
    have h1 : ¬(1500 < v.length) := by omega
    rw [if_neg h1] at huv
    simp only [List.mem_singleton] at huv
    subst huv
    rw [if_neg h1] at hsu
    simp only [List.mem_singleton] at hsu
    subst hsu
    have := stripWS_length_le s
    simp only [decide_eq_true_eq, not_lt]
    omega

theorem windowSplit_nil_of_short (m : List Char) (h : m.length ≤ 50)
    (size overlap : Nat) : windowSplit m size overlap = [] := by
  apply List.filter_eq_nil_iff.mpr
  intro c hc
  rcases List.mem_map.mp hc with ⟨i, _, rfl⟩
  simp only [decide_eq_true_eq, not_lt]
  have h1 : ((m.drop i).take size).length ≤ m.length := by
    rw [List.length_take, List.length_drop]
    omega
  omega

theorem zero_mem_pyRange (stop : Nat) (h : 0 < stop) : 0 ∈ pyRange stop 750 := by
  unfold pyRange
  refine List.mem_map.mpr ⟨0, ?_, by simp⟩
  rw [List.mem_range]
  have h1 : 1 ≤ (stop + 749) / 750 := by
    rw [Nat.le_div_iff_mul_le (by norm_num)]
    omega
  omega

theorem take1000_mem_windowSplit (m : List Char) (h : 50 < m.length) :
    m.take 1000 ∈ windowSplit m 1000 250 := by
  apply List.mem_filter.mpr
  constructor
  · exact List.mem_map.mpr ⟨0, zero_mem_pyRange m.length (by omega), by simp⟩
  · simp only [decide_eq_true_eq]
    rw [List.length_take]
    omega

/-- Claim C8: the chunking pipeline returns no chunks exactly when the
input is empty or the normalized text is at or below the 50-character
noise floor; in particular empty input yields an empty list, not an
error. -/
theorem chunks_empty_iff (l : List Char) :
    process_text l 1000 250 = [] ↔
      l = [] ∨ (clean_and_normalize_text l).length ≤ 50 := by
  constructor
  · intro h
    by_cases hl : l = []
    · exact Or.inl hl
    right
    by_contra hlen
    push_neg at hlen
    rw [process_text, if_neg hl] at h
    by_cases hsem : 3 < (semantic_text_splitting (clean_and_normalize_text l)).length
    · rw [if_pos hsem] at h
      obtain ⟨s, hs⟩ : ∃ s, s ∈ semantic_text_splitting (clean_and_normalize_text l) := by
        cases hx : semantic_text_splitting (clean_and_normalize_text l) with
        | nil => rw [hx] at hsem; simp at hsem
        | cons a tl => exact ⟨a, by simp⟩
      have hs50 : 50 < s.length :=
        lt_of_lt_of_le (mem_semantic_strip _ s hs) (stripWS_length_le s)
      by_cases hbig : 1000 + 500 < s.length
      · have hmem : s.take 1000 ∈ (semantic_text_splitting (clean_and_normalize_text l)).flatMap
            (fun c => if 1000 + 500 < c.length then windowSplit c 1000 250 else [c]) :=
          List.mem_flatMap.mpr ⟨s, hs, by
            rw [if_pos hbig]
            exact take1000_mem_windowSplit s (by omega)⟩
        rw [h] at hmem
        simp at hmem
      · have hmem : s ∈ (semantic_text_splitting (clean_and_normalize_text l)).flatMap
            (fun c => if 1000 + 500 < c.length then windowSplit c 1000 250 else [c]) :=
          List.mem_flatMap.mpr ⟨s, hs, by rw [if_neg hbig]; simp⟩
        rw [h] at hmem
        simp at hmem
    · rw [if_neg hsem] at h
      have hmem := take1000_mem_windowSplit (clean_and_normalize_text l) hlen
      rw [h] at hmem
      simp at hmem
  · intro h
    rcases h with h | h
    · subst h
      simp [process_text]
    · rw [process_text]
      by_cases hl : l = []
      · rw [if_pos hl]
      · rw [if_neg hl, semantic_nil_of_short _ h, if_neg (by simp)]
        exact windowSplit_nil_of_short _ h 1000 250

/-! ## Scenario B: a single 3000-character block -/

theorem noWS_scenarioB : ∀ c ∈ scenarioB, pySpace c = false := by
  intro c hc
  rw [scenarioB, List.mem_replicate] at hc
  rw [hc.2]
  decide

theorem noNL_scenarioB : '\n' ∉ scenarioB := by
  intro h
  have := noWS_scenarioB '\n' h
  exact absurd this (by decide)

theorem scenarioB_ne_nil : scenarioB ≠ [] := by
  intro h
  have hlen : scenarioB.length = 0 := by rw [h]; rfl
  rw [scenarioB, List.length_replicate] at hlen
  omega

theorem clean_scenarioB : clean_and_normalize_text scenarioB = scenarioB := by
  rw [clean_and_normalize_text, if_neg scenarioB_ne_nil,
    subBlank_of_noNL _ noNL_scenarioB, collapseWS_of_noWS _ noWS_scenarioB,
    dashFix_eq_self _ (fun c hc => by
      rw [scenarioB, List.mem_replicate] at hc
      rw [hc.2]
      exact ⟨by decide, by decide⟩),
    stripWS_of_noWS _ noWS_scenarioB]

theorem semantic_scenarioB : semantic_text_splitting scenarioB = [scenarioB] := by
  rw [semantic_text_splitting, if_neg scenarioB_ne_nil,
    splitBlank_of_noNL _ noNL_scenarioB]
  have hlen : scenarioB.length = 3000 := by rw [scenarioB]; simp
  have hsent : splitSent scenarioB = [scenarioB] := by
    apply splitSent_of_noTerm
    intro c hc
    rw [scenarioB, List.mem_replicate] at hc
    rw [hc.2]
    decide
  have hgroup : groupLoop [] [scenarioB] = [[], scenarioB] := by
    rw [groupLoop, if_neg (by rw [List.length_nil, hlen]; omega), groupLoop,
      if_neg scenarioB_ne_nil]
  have hstrip : stripWS scenarioB = scenarioB := stripWS_of_noWS _ noWS_scenarioB
  simp only [List.flatMap_cons, List.flatMap_nil, List.append_nil,
    if_pos (by rw [hlen]; omega : 1500 < scenarioB.length), splitNL_of_noNL _ noNL_scenarioB,
    groupSentences, hsent, hgroup]
  rw [List.filter_cons, List.filter_cons, List.filter_nil]
  have h1 : decide (50 < (stripWS ([] : List Char)).length) = false := by decide
  have h2 : decide (50 < (stripWS scenarioB).length) = true := by
    rw [hstrip]
    simp [hlen]
  rw [h1, h2]
  simp

theorem windowSplit_scenarioB :
    windowSplit scenarioB 1000 250 =
      [List.replicate 1000 'x', List.replicate 1000 'x', List.replicate 1000 'x',
       List.replicate 750 'x'] := by
  rw [windowSplit]
  have hlen : scenarioB.length = 3000 := by rw [scenarioB]; simp
  rw [hlen, show (1000 - 250 : Nat) = 750 from rfl,
    show pyRange 3000 750 = [0, 750, 1500, 2250] from by decide]
  rw [scenarioB]
  simp only [List.map_cons, List.map_nil, List.drop_replicate, List.take_replicate]
  norm_num

theorem process_scenarioB :
    process_text scenarioB 1000 250 =
      [List.replicate 1000 'x', List.replicate 1000 'x', List.replicate 1000 'x',
       List.replicate 750 'x'] := by
  rw [process_text, if_neg scenarioB_ne_nil, clean_scenarioB, semantic_scenarioB,
    if_neg (by simp), windowSplit_scenarioB]

/-! ## Scenario A: four 300-character paragraphs separated by blank lines -/

theorem paraA_ne_nil : paraA ≠ [] := by
  intro h
  have hlen : paraA.length = 0 := by rw [h]; rfl
  rw [paraA, List.length_replicate] at hlen
  omega

theorem noWS_paraA : ∀ c ∈ paraA, pySpace c = false := by
  intro c hc
  rw [paraA, List.mem_replicate] at hc
  rw [hc.2]
  decide

theorem noNL_paraA : '\n' ∉ paraA := by
  intro h
  exact absurd (noWS_paraA '\n' h) (by decide)

theorem noWSHead_paraA_append (B : List Char) : noWSHead (paraA ++ B) = true := by
  rw [paraA, show (300 : Nat) = 299 + 1 from rfl, List.replicate_succ, List.cons_append]
  simp only [noWSHead]
  decide

theorem noWSHead_paraA : noWSHead paraA = true := by
  have := noWSHead_paraA_append []
  simpa using this

theorem subBlank_scenarioA :
    subBlank scenarioA = paraA ++ '\n' :: (paraA ++ '\n' :: (paraA ++ '\n' :: paraA)) := by
  rw [scenarioA]
  rw [subBlank_append_noNL _ _ noNL_paraA]
  rw [subBlank_cons_match _ _ (dropNL_nl _ (noWSHead_paraA_append _))]
  rw [subBlank_append_noNL _ _ noNL_paraA]
  rw [subBlank_cons_match _ _ (dropNL_nl _ (noWSHead_paraA_append _))]
  rw [subBlank_append_noNL _ _ noNL_paraA]
  rw [subBlank_cons_match _ _ (dropNL_nl _ noWSHead_paraA)]
  rw [subBlank_of_noNL _ noNL_paraA]

theorem paraA_append_ne_nil (B : List Char) : paraA ++ B ≠ [] := by
  intro e
  exact paraA_ne_nil (List.append_eq_nil.mp e).1

theorem collapseWS_scenarioA :
    collapseWS (paraA ++ '\n' :: (paraA ++ '\n' :: (paraA ++ '\n' :: paraA))) = normA := by
  rw [collapseWS_append_noWS _ _ noWS_paraA]
  rw [collapseWS_ws_cons '\n' _ (by decide) (noWSHead_paraA_append _) (paraA_append_ne_nil _)]
  rw [collapseWS_append_noWS _ _ noWS_paraA]
  rw [collapseWS_ws_cons '\n' _ (by decide) (noWSHead_paraA_append _) (paraA_append_ne_nil _)]
  rw [collapseWS_append_noWS _ _ noWS_paraA]
  rw [collapseWS_ws_cons '\n' _ (by decide) noWSHead_paraA paraA_ne_nil]
  rw [collapseWS_of_noWS _ noWS_paraA, normA]

theorem mem_normA (c : Char) (h : c ∈ normA) : c = 'a' ∨ c = ' ' := by
  simp only [normA, paraA, List.mem_append, List.mem_cons, List.mem_replicate] at h
  tauto

theorem dashFix_normA : dashFix normA = normA := by
  apply dashFix_eq_self
  intro c hc
  rcases mem_normA c hc with rfl | rfl
  · exact ⟨by decide, by decide⟩
  · exact ⟨by decide, by decide⟩

theorem stripEnd_cons_of_tail (c : Char) (M : List Char) (hM : stripEnd M = M)
    (hMne : M ≠ []) : stripEnd (c :: M) = c :: M := by
  rw [stripEnd, hM, if_neg]
  simp [List.isEmpty_iff, hMne]

theorem stripEnd_append_of_tail (A M : List Char) (hM : stripEnd M = M)
    (hMne : M ≠ []) : stripEnd (A ++ M) = A ++ M := by
  rw [stripEnd_append, if_neg (by rw [hM]; exact hMne), hM]

theorem stripEnd_paraA : stripEnd paraA = paraA := stripEnd_of_noWS _ noWS_paraA

theorem stripWS_normA : stripWS normA = normA := by
  have e2 : stripEnd (' ' :: paraA) = ' ' :: paraA :=
    stripEnd_cons_of_tail _ _ stripEnd_paraA paraA_ne_nil
  have e3 : stripEnd (paraA ++ ' ' :: paraA) = paraA ++ ' ' :: paraA :=
    stripEnd_append_of_tail _ _ e2 (by simp)
  have e4 : stripEnd (' ' :: (paraA ++ ' ' :: paraA)) = ' ' :: (paraA ++ ' ' :: paraA) :=
    stripEnd_cons_of_tail _ _ e3 (paraA_append_ne_nil _)
  have e5 : stripEnd (paraA ++ ' ' :: (paraA ++ ' ' :: paraA)) =
      paraA ++ ' ' :: (paraA ++ ' ' :: paraA) :=
    stripEnd_append_of_tail _ _ e4 (by simp)
  have e6 : stripEnd (' ' :: (paraA ++ ' ' :: (paraA ++ ' ' :: paraA))) =
      ' ' :: (paraA ++ ' ' :: (paraA ++ ' ' :: paraA)) :=
    stripEnd_cons_of_tail _ _ e5 (paraA_append_ne_nil _)
  rw [stripWS, normA, dropWhile_of_noWSHead _ (noWSHead_paraA_append _)]
  exact stripEnd_append_of_tail _ _ e6 (by simp)

theorem scenarioA_ne_nil : scenarioA ≠ [] := by
  rw [scenarioA]
  exact paraA_append_ne_nil _

theorem clean_scenarioA : clean_and_normalize_text scenarioA = normA := by
  rw [clean_and_normalize_text, if_neg scenarioA_ne_nil, subBlank_scenarioA,
    collapseWS_scenarioA, dashFix_normA, stripWS_normA]

theorem normA_length : normA.length = 1203 := by
  simp [normA, paraA]

theorem normA_ne_nil : normA ≠ [] := by
  rw [normA]
  exact paraA_append_ne_nil _

theorem noNL_normA : '\n' ∉ normA := by
  intro h
  rcases mem_normA '\n' h with e | e <;> exact absurd e (by decide)

theorem semantic_normA : semantic_text_splitting normA = [normA] := by
  rw [semantic_text_splitting, if_neg normA_ne_nil, splitBlank_of_noNL _ noNL_normA]
  have hshort : ¬(1500 < normA.length) := by
    rw [normA_length]
    omega
  simp only [List.flatMap_cons, List.flatMap_nil, List.append_nil, if_neg hshort]
  rw [List.filter_cons, List.filter_nil]
  have hkeep : decide (50 < (stripWS normA).length) = true := by
    rw [stripWS_normA, normA_length]
    decide
  rw [hkeep]
  simp

theorem windowSplit_normA :
    windowSplit normA 1000 250 = [normA.take 1000, (normA.drop 750).take 1000] := by
  rw [windowSplit, normA_length, show (1000 - 250 : Nat) = 750 from rfl,
    show pyRange 1203 750 = [0, 750] from by decide]
  simp only [List.map_cons, List.map_nil, List.drop_zero]
  rw [List.filter_cons, List.filter_cons, List.filter_nil]
  have h1 : decide (50 < (normA.take 1000).length) = true := by
    rw [List.length_take, normA_length]
    decide
  have h2 : decide (50 < ((normA.drop 750).take 1000).length) = true := by
    rw [List.length_take, List.length_drop, normA_length]
    decide
  rw [h1, h2]
  simp

theorem process_scenarioA :
    process_text scenarioA 1000 250 = [normA.take 1000, (normA.drop 750).take 1000] := by
  rw [process_text, if_neg scenarioA_ne_nil, clean_scenarioA, semantic_normA,
    if_neg (by simp), windowSplit_normA]

/-- Claim C3 (counterexample): on the scenario-A input (four
300-character paragraphs separated by blank lines) the pipeline with the
default parameters returns 2 chunks, not the claimed 4 paragraph
chunks. -/
theorem scenarioA_not_four_chunks :
    (process_text scenarioA 1000 250).length = 2 ∧
    process_text scenarioA 1000 250 ≠ [paraA, paraA, paraA, paraA] := by
  rw [process_scenarioA]
  refine ⟨by simp, ?_⟩
  intro h
  have hlen := congrArg List.length h
  simp at hlen

/-- Claim C3 (amended): normalization turns the blank-line boundaries of
the scenario-A input into single spaces, so the semantic cascade sees one
1203-character section, falls back to the sliding window, and the
pipeline returns the 2 window chunks at offsets 0 and 750 of the
normalized text. -/
theorem scenarioA_two_window_chunks :
    process_text scenarioA 1000 250 =
      [(clean_and_normalize_text scenarioA).take 1000,
       ((clean_and_normalize_text scenarioA).drop 750).take 1000] ∧
    (clean_and_normalize_text scenarioA).length = 1203 := by
  rw [clean_scenarioA]
  exact ⟨process_scenarioA, normA_length⟩

/-- Claim C5: when the semantic cascade yields 3 or fewer surviving
sections, `process_text` discards the cascade result and applies the
sliding window (stride `chunk_size - chunk_overlap`, slices of up to
`chunk_size`, noise filter at 50) to the whole normalized text; in
particular, on a single 3000-character block with no blank lines and no
sentence punctuation it returns the 4 chunks starting at offsets 0, 750,
1500 and 2250. -/
theorem fallback_sliding_window :
    (∀ (l : List Char) (cs co : Nat), l ≠ [] →
      (semantic_text_splitting (clean_and_normalize_text l)).length ≤ 3 →
      process_text l cs co = windowSplit (clean_and_normalize_text l) cs co) ∧
    process_text scenarioB 1000 250 =
      [List.replicate 1000 'x', List.replicate 1000 'x', List.replicate 1000 'x',
       List.replicate 750 'x'] := by
  constructor
  · intro l cs co hl hsem
    rw [process_text, if_neg hl, if_neg (by omega)]
  · exact process_scenarioB

/-- Claim C5 (witness): a 100-character single-block input engages the
fallback, and `process_text` equals the sliding window over its
normalized text. -/
theorem fallback_sliding_window_app :
    process_text (List.replicate 100 'y') 1000 250 =
      windowSplit (clean_and_normalize_text (List.replicate 100 'y')) 1000 250 :=
  fallback_sliding_window.1 (List.replicate 100 'y') 1000 250 (by decide) (by decide)

end WebChatbot
